import Mathlib

/-!
Verification development for the `areq` crate: a shallow embedding of the
version-range data model (`Range<T>`, the `RangeExtreme` trait family,
`PureVersion` and its prerelease identifiers) together with proofs about the
claims of the specification.

Machine integers (`u64`, `u8`, ...) are modelled as `Nat`/`Int` with explicit
bounds where overflow matters; Rust code that can panic is modelled with
`Option` (with `none` standing for the panic); fallible code returns `Except`.
-/

set_option maxRecDepth 4000

namespace Areq

/-- Decimal value of `u64::MAX` (`2 ^ 64 - 1`). -/
def UMAX : Nat := 2 ^ 64 - 1

/-! ## Comparators (model of Rust `Ord::cmp`) -/

/-- Rust `Ord for u64` (and the other unsigned widths): the natural order,
returned as an `Ordering`. -/
def natCmp (a b : Nat) : Ordering :=
  if a < b then .lt else if b < a then .gt else .eq

/-- The laws a Rust `Ord` implementation guarantees, stated for an
`Ordering`-valued comparator. -/
structure LawfulCmp {α : Type} (f : α → α → Ordering) : Prop where
  eq_iff : ∀ a b, f a b = .eq ↔ a = b
  swap_eq : ∀ a b, (f a b).swap = f b a
  lt_trans : ∀ {a b c}, f a b = .lt → f b c = .lt → f a c = .lt

theorem natCmp_eq_iff (a b : Nat) : natCmp a b = .eq ↔ a = b := by
  unfold natCmp
  split
  · exact iff_of_false (by simp) (by omega)
  · split
    · exact iff_of_false (by simp) (by omega)
    · exact iff_of_true rfl (by omega)

theorem natCmp_lt_iff (a b : Nat) : natCmp a b = .lt ↔ a < b := by
  unfold natCmp
  split
  · exact iff_of_true rfl (by omega)
  · split
    · exact iff_of_false (by simp) (by omega)
    · exact iff_of_false (by simp) (by omega)

theorem natCmp_gt_iff (a b : Nat) : natCmp a b = .gt ↔ b < a := by
  unfold natCmp
  split
  · exact iff_of_false (by simp) (by omega)
  · split
    · exact iff_of_true rfl (by omega)
    · exact iff_of_false (by simp) (by omega)

theorem natCmp_swap (a b : Nat) : (natCmp a b).swap = natCmp b a := by
  unfold natCmp
  rcases Nat.lt_trichotomy a b with h | h | h
  · simp [h, Nat.lt_asymm h, Ordering.swap]
  · simp [h, Nat.lt_irrefl, Ordering.swap]
  · simp [h, Nat.lt_asymm h, Nat.not_lt_of_lt h, Ordering.swap]

theorem natCmp_lawful : LawfulCmp natCmp where
  eq_iff := natCmp_eq_iff
  swap_eq := natCmp_swap
  lt_trans h₁ h₂ := by
    rw [natCmp_lt_iff] at *
    omega

namespace LawfulCmp

variable {α : Type} {f : α → α → Ordering}

theorem refl (hf : LawfulCmp f) (a : α) : f a a = .eq := (hf.eq_iff a a).mpr rfl

theorem gt_iff_lt (hf : LawfulCmp f) (a b : α) : f a b = .gt ↔ f b a = .lt := by
  have h := hf.swap_eq a b
  cases hab : f a b <;> rw [hab] at h <;> simp [Ordering.swap] at h <;> simp [← h]

theorem lt_irrefl (hf : LawfulCmp f) (a : α) : f a a ≠ .lt := by
  rw [hf.refl a]; simp

/-- Not-greater is the Rust relation `a <= b`; it composes with strict
less-than on the left. -/
theorem lt_of_lt_of_le (hf : LawfulCmp f) {a b c : α} (h₁ : f a b = .lt)
    (h₂ : f b c ≠ .gt) : f a c = .lt := by
  cases hbc : f b c with
  | lt => exact hf.lt_trans h₁ hbc
  | eq => rw [(hf.eq_iff b c).mp hbc] at h₁; exact h₁
  | gt => exact absurd hbc h₂

theorem lt_of_le_of_lt (hf : LawfulCmp f) {a b c : α} (h₁ : f a b ≠ .gt)
    (h₂ : f b c = .lt) : f a c = .lt := by
  cases hab : f a b with
  | lt => exact hf.lt_trans hab h₂
  | eq => rw [← (hf.eq_iff a b).mp hab] at h₂; exact h₂
  | gt => exact absurd hab h₁

theorem le_trans (hf : LawfulCmp f) {a b c : α} (h₁ : f a b ≠ .gt)
    (h₂ : f b c ≠ .gt) : f a c ≠ .gt := by
  intro hac
  rw [hf.gt_iff_lt] at hac
  have h := hf.lt_of_lt_of_le hac h₁
  rw [← hf.gt_iff_lt] at h
  exact h₂ h

theorem le_of_lt {a b : α} (h : f a b = .lt) : f a b ≠ .gt := by
  rw [h]; simp

end LawfulCmp

/-! ## Lexicographic list comparison (model of Rust's derived `Ord` for
`Vec<T>`/slices): compare element-wise; a strict prefix sorts before its
extension. -/

def cmpList {α : Type} (f : α → α → Ordering) : List α → List α → Ordering
  | [], [] => .eq
  | [], _ :: _ => .lt
  | _ :: _, [] => .gt
  | a :: as, b :: bs => (f a b).then (cmpList f as bs)

theorem cmpList_eq_iff {α : Type} {f : α → α → Ordering} (hf : LawfulCmp f) :
    ∀ l m : List α, cmpList f l m = .eq ↔ l = m := by
  intro l
  induction l with
  | nil =>
    intro m
    cases m <;> simp [cmpList]
  | cons a as ih =>
    intro m
    cases m with
    | nil => simp [cmpList]
    | cons b bs =>
      simp only [cmpList, Ordering.then_eq_eq, List.cons.injEq, ih bs,
        hf.eq_iff a b]

theorem cmpList_swap {α : Type} {f : α → α → Ordering} (hf : LawfulCmp f) :
    ∀ l m : List α, (cmpList f l m).swap = cmpList f m l := by
  intro l
  induction l with
  | nil => intro m; cases m <;> simp [cmpList, Ordering.swap]
  | cons a as ih =>
    intro m
    cases m with
    | nil => simp [cmpList, Ordering.swap]
    | cons b bs =>
      simp only [cmpList, Ordering.swap_then, hf.swap_eq a b, ih bs]

theorem cmpList_lt_trans {α : Type} {f : α → α → Ordering} (hf : LawfulCmp f) :
    ∀ {l m k : List α}, cmpList f l m = .lt → cmpList f m k = .lt →
      cmpList f l k = .lt := by
  intro l
  induction l with
  | nil =>
    intro m k h₁ h₂
    cases m with
    | nil => exact h₂
    | cons b bs =>
      cases k with
      | nil => simp [cmpList] at h₂
      | cons c cs => simp [cmpList]
  | cons a as ih =>
    intro m k h₁ h₂
    cases m with
    | nil => simp [cmpList] at h₁
    | cons b bs =>
      cases k with
      | nil => simp [cmpList] at h₂
      | cons c cs =>
        simp only [cmpList, Ordering.then_eq_lt] at h₁ h₂ ⊢
        rcases h₁ with h₁ | ⟨h₁e, h₁l⟩
        · rcases h₂ with h₂ | ⟨h₂e, h₂l⟩
          · exact Or.inl (hf.lt_trans h₁ h₂)
          · rw [← (hf.eq_iff b c).mp h₂e]
            exact Or.inl h₁
        · rcases h₂ with h₂ | ⟨h₂e, h₂l⟩
          · rw [(hf.eq_iff a b).mp h₁e]
            exact Or.inl h₂
          · rw [(hf.eq_iff a b).mp h₁e, h₂e]
            exact Or.inr ⟨rfl, ih h₁l h₂l⟩

theorem cmpList_lawful {α : Type} {f : α → α → Ordering} (hf : LawfulCmp f) :
    LawfulCmp (cmpList f) where
  eq_iff := cmpList_eq_iff hf
  swap_eq := cmpList_swap hf
  lt_trans := cmpList_lt_trans hf

/-- Transfer the comparator laws along a pointwise-equal comparator. -/
theorem LawfulCmp.of_eq {α : Type} {f g : α → α → Ordering}
    (h : ∀ a b, f a b = g a b) (hg : LawfulCmp g) : LawfulCmp f where
  eq_iff a b := by rw [h]; exact hg.eq_iff a b
  swap_eq a b := by rw [h, h]; exact hg.swap_eq a b
  lt_trans h₁ h₂ := by rw [h] at *; exact hg.lt_trans h₁ h₂

/-- Transfer the comparator laws along an injective embedding. -/
theorem LawfulCmp.pullback {α β : Type} (e : α → β) (he : Function.Injective e)
    {g : β → β → Ordering} (hg : LawfulCmp g) :
    LawfulCmp (fun a b => g (e a) (e b)) where
  eq_iff a b := by rw [hg.eq_iff]; exact ⟨fun h => he h, fun h => by rw [h]⟩
  swap_eq a b := hg.swap_eq (e a) (e b)
  lt_trans h₁ h₂ := hg.lt_trans h₁ h₂

/-- Lexicographic pairing of two comparators (model of Rust's derived `Ord`
for a pair of fields). -/
def cmpProd {β γ : Type} (g : β → β → Ordering) (h : γ → γ → Ordering)
    (x y : β × γ) : Ordering :=
  (g x.1 y.1).then (h x.2 y.2)

theorem cmpProd_lawful {β γ : Type} {g : β → β → Ordering}
    {h : γ → γ → Ordering} (hg : LawfulCmp g) (hh : LawfulCmp h) :
    LawfulCmp (cmpProd g h) where
  eq_iff x y := by
    simp only [cmpProd, Ordering.then_eq_eq, hg.eq_iff, hh.eq_iff, Prod.ext_iff]
  swap_eq x y := by
    simp only [cmpProd, Ordering.swap_then, hg.swap_eq, hh.swap_eq]
  lt_trans {x y z} h₁ h₂ := by
    simp only [cmpProd, Ordering.then_eq_lt] at h₁ h₂ ⊢
    rcases h₁ with h₁ | ⟨h₁e, h₁l⟩
    · rcases h₂ with h₂ | ⟨h₂e, h₂l⟩
      · exact Or.inl (hg.lt_trans h₁ h₂)
      · rw [← (hg.eq_iff _ _).mp h₂e]
        exact Or.inl h₁
    · rcases h₂ with h₂ | ⟨h₂e, h₂l⟩
      · rw [(hg.eq_iff _ _).mp h₁e]
        exact Or.inl h₂
      · rw [(hg.eq_iff _ _).mp h₁e, h₂e]
        exact Or.inr ⟨rfl, hh.lt_trans h₁l h₂l⟩

/-! ## Prerelease identifiers

Model of `src/version/pure/prerelease.rs`: `Prerelease` is either a numeric
identifier (`NumericPrerelease`, a `BigUint` — modelled as `Nat`) or an
alphanumeric one (`AlphaPrerelease`, a `String`).  The derived Rust `Ord`
puts every numeric identifier before every alphanumeric one, numerics compare
as integers and alphanumerics as byte strings (for the ASCII strings the
grammar admits, comparing Unicode code points is the same order). -/

inductive Prerelease : Type where
  | numeric (n : Nat)
  | alpha (s : String)
deriving DecidableEq

/-- `Prerelease::MIN`: the numeric-zero identifier. -/
def Prerelease.MIN : Prerelease := .numeric 0

/-- Rust `Ord for char` (code-point order; equals byte order of UTF-8). -/
def charCmp (c d : Char) : Ordering := natCmp c.toNat d.toNat

/-- Rust `Ord for String`: lexicographic on the characters. -/
def strCmp (s t : String) : Ordering := cmpList charCmp s.data t.data

/-- The derived `Ord for Prerelease`. -/
def prCmp : Prerelease → Prerelease → Ordering
  | .numeric a, .numeric b => natCmp a b
  | .numeric _, .alpha _ => .lt
  | .alpha _, .numeric _ => .gt
  | .alpha a, .alpha b => strCmp a b

theorem charCmp_lawful : LawfulCmp charCmp := by
  have he : Function.Injective Char.toNat := by
    intro c d h
    exact Char.eq_of_val_eq (UInt32.toNat.inj h)
  exact LawfulCmp.pullback Char.toNat he natCmp_lawful

theorem strCmp_lawful : LawfulCmp strCmp := by
  have he : Function.Injective String.data := by
    intro ⟨s⟩ ⟨t⟩ h
    exact congrArg String.mk h
  exact LawfulCmp.pullback String.data he (cmpList_lawful charCmp_lawful)

theorem prCmp_lawful : LawfulCmp prCmp where
  eq_iff a b := by
    cases a <;> cases b <;>
      simp [prCmp, natCmp_eq_iff, strCmp_lawful.eq_iff]
  swap_eq a b := by
    cases a <;> cases b
    · exact natCmp_swap _ _
    · rfl
    · rfl
    · exact strCmp_lawful.swap_eq _ _
  lt_trans {a b c} h₁ h₂ := by
    cases a <;> cases b <;> cases c <;> simp_all [prCmp]
    · exact natCmp_lawful.lt_trans h₁ h₂
    · exact strCmp_lawful.lt_trans h₁ h₂

/-- `Prerelease::MIN` is minimal: nothing compares strictly below it. -/
theorem prCmp_min (p : Prerelease) : prCmp p Prerelease.MIN ≠ .lt := by
  cases p with
  | numeric n => simp [prCmp, Prerelease.MIN, natCmp_lt_iff]
  | alpha s => simp [prCmp, Prerelease.MIN]

/-! ## `PureVersion` (model of `src/version/pure.rs`)

`UInt` is `u64`; fields are modelled as `Nat` (bounds enter explicitly where
overflow matters). -/

structure PureVersion where
  major : Nat
  minor : Nat
  patch : Nat
  pre : List Prerelease
deriving DecidableEq

namespace PureVersion

/-- `PureVersion::MIN`: `0.0.0-0`. -/
def MIN : PureVersion := ⟨0, 0, 0, [Prerelease.MIN]⟩

/-- `PureVersion::MAX`: `u64::MAX.u64::MAX.u64::MAX` with no prerelease. -/
def MAX : PureVersion := ⟨UMAX, UMAX, UMAX, []⟩

/-- `PureVersion::new`: builds a version with no prerelease; performs no
check of any kind. -/
def new (major minor patch : Nat) : PureVersion := ⟨major, minor, patch, []⟩

/-- `PureVersion::is_prerelease`. -/
def is_prerelease (v : PureVersion) : Bool := !v.pre.isEmpty

/-- `PureVersion::next` on the non-panicking domain: bump `patch` when there
is no prerelease, then always push `Prerelease::MIN`.  (In Rust the
`self.patch += 1` is a `u64` addition; see `next?` for the overflow
behaviour.) -/
def next (v : PureVersion) : PureVersion :=
  { v with
    patch := if v.is_prerelease then v.patch else v.patch + 1
    pre := v.pre ++ [Prerelease.MIN] }

/-- `PureVersion::next` with the debug-profile overflow behaviour of
`self.patch += 1` made explicit: `none` models the arithmetic-overflow panic
that occurs when `patch` is `u64::MAX` and there is no prerelease. -/
def next? (v : PureVersion) : Option PureVersion :=
  if v.is_prerelease then
    some { v with pre := v.pre ++ [Prerelease.MIN] }
  else if v.patch + 1 ≤ UMAX then
    some { v with patch := v.patch + 1, pre := v.pre ++ [Prerelease.MIN] }
  else none

/-- `PureVersion::has_prev` (`UInt::MIN` is `0`). -/
def has_prev (v : PureVersion) : Bool :=
  (v.pre.getLast? == some Prerelease.MIN) &&
    (if v.pre.length = 1 then v.patch != 0 else true)

/-- `PureVersion::compare_next_to`.  `other.pre.split_last().unwrap().1` is
the list without its last element (`dropLast`); the `unwrap` cannot panic
because `has_prev` has already checked the list is non-empty. -/
def compare_next_to (a b : PureVersion) : Bool :=
  b.has_prev && a.major == b.major && a.minor == b.minor &&
    (if a.is_prerelease then
      a.patch == b.patch && a.pre == b.pre.dropLast
    else
      a.patch + 1 == b.patch && b.pre.length == 1)

/-- The derived `Display` of one prerelease identifier. -/
def renderPre : Prerelease → String
  | .numeric n => toString n
  | .alpha s => s

/-- `display_impl` of `src/version/pure.rs`: `maj.min.patch` and, when the
prerelease list is non-empty, `-` then the dot-separated identifiers. -/
def display_impl (major minor patch : Nat) (pre : List Prerelease) : String :=
  toString major ++ "." ++ toString minor ++ "." ++ toString patch ++
    match pre with
    | [] => ""
    | p :: rest =>
      "-" ++ renderPre p ++ rest.foldl (fun acc q => acc ++ "." ++ renderPre q) ""

/-- The `Display` implementation for `PureVersion`. -/
def render (v : PureVersion) : String :=
  display_impl v.major v.minor v.patch v.pre

/-- `PureVersion::display_prev`: formats the predecessor; returns a
formatter error (modelled as `none`) when `has_prev` is false. -/
def display_prev (v : PureVersion) : Option String :=
  if !v.has_prev then none
  else
    some (display_impl v.major v.minor
      (v.patch - if v.pre.length = 1 then 1 else 0) v.pre.dropLast)

/-- `Ord for PureVersion` (`src/version/pure.rs`, `impl Ord`): major, minor,
patch, then the prerelease rule. -/
def cmp (a b : PureVersion) : Ordering :=
  if a.major ≠ b.major then natCmp a.major b.major
  else if a.minor ≠ b.minor then natCmp a.minor b.minor
  else if a.patch ≠ b.patch then natCmp a.patch b.patch
  else
    match a.is_prerelease, b.is_prerelease with
    | true, true => cmpList prCmp a.pre b.pre
    | true, false => .lt
    | false, true => .gt
    | false, false => .eq

/-- The prerelease part of `cmp`, on its own: a non-empty prerelease list
sorts before an empty one, two non-empty lists compare lexicographically. -/
def preCmp (l m : List Prerelease) : Ordering :=
  match l.isEmpty, m.isEmpty with
  | false, false => cmpList prCmp l m
  | false, true => .lt
  | true, false => .gt
  | true, true => .eq

theorem preCmp_lawful : LawfulCmp preCmp where
  eq_iff l m := by
    cases l <;> cases m <;>
      simp [preCmp, List.isEmpty, (cmpList_lawful prCmp_lawful).eq_iff]
  swap_eq l m := by
    cases l <;> cases m <;>
      first
        | rfl
        | exact (cmpList_lawful prCmp_lawful).swap_eq _ _
  lt_trans {l m k} h₁ h₂ := by
    cases l with
    | nil =>
      cases m with
      | nil => simp [preCmp] at h₁
      | cons b bs => simp [preCmp] at h₁
    | cons a as =>
      cases m with
      | nil =>
        cases k with
        | nil => simp [preCmp] at h₂
        | cons c cs => simp [preCmp] at h₂
      | cons b bs =>
        cases k with
        | nil => rfl
        | cons c cs =>
          simp only [preCmp, List.isEmpty] at h₁ h₂ ⊢
          exact (cmpList_lawful prCmp_lawful).lt_trans h₁ h₂

/-- The projection of a version onto its fields, in comparison order. -/
def fields (v : PureVersion) : Nat × Nat × Nat × List Prerelease :=
  (v.major, v.minor, v.patch, v.pre)

/-- `cmp` is the lexicographic comparison of the four fields, with the
prerelease rule `preCmp` last. -/
theorem cmp_eq_fields (a b : PureVersion) :
    cmp a b =
      cmpProd natCmp (cmpProd natCmp (cmpProd natCmp preCmp))
        (fields a) (fields b) := by
  unfold cmp cmpProd fields
  dsimp only
  have hthen : ∀ {x y : Nat} {o : Ordering}, x = y → (natCmp x y).then o = o := by
    intro x y o h
    rw [(natCmp_eq_iff x y).mpr h]
    rfl
  have hthen' : ∀ {x y : Nat} {o : Ordering}, x ≠ y → (natCmp x y).then o = natCmp x y := by
    intro x y o h
    cases hc : natCmp x y with
    | eq => exact absurd ((natCmp_eq_iff x y).mp hc) h
    | lt => rfl
    | gt => rfl
  split
  · rw [hthen' (by assumption)]
  · rw [hthen (by omega)]
    split
    · rw [hthen' (by assumption)]
    · rw [hthen (by omega)]
      split
      · rw [hthen' (by assumption)]
      · rw [hthen (by omega)]
        simp only [preCmp, is_prerelease]
        cases a.pre <;> cases b.pre <;> rfl

theorem fields_injective : Function.Injective fields := by
  intro a b h
  cases a
  cases b
  simpa [fields, PureVersion.mk.injEq] using h

/-- `PureVersion::cmp` satisfies the `Ord` laws (total order). -/
theorem cmp_lawful : LawfulCmp cmp :=
  LawfulCmp.of_eq cmp_eq_fields
    (LawfulCmp.pullback fields fields_injective
      (cmpProd_lawful natCmp_lawful
        (cmpProd_lawful natCmp_lawful
          (cmpProd_lawful natCmp_lawful preCmp_lawful))))

/-- Arithmetic characterisation of `cmp a b = .lt`. -/
theorem cmp_lt_iff (a b : PureVersion) :
    cmp a b = .lt ↔
      a.major < b.major ∨ (a.major = b.major ∧
        (a.minor < b.minor ∨ (a.minor = b.minor ∧
          (a.patch < b.patch ∨ (a.patch = b.patch ∧
            preCmp a.pre b.pre = .lt))))) := by
  rw [cmp_eq_fields]
  simp only [cmpProd, fields, Ordering.then_eq_lt, Ordering.then_eq_eq,
    natCmp_lt_iff, natCmp_eq_iff]

/-- A list never sorts strictly below the empty list. -/
theorem cmpList_nil_not_lt (l : List Prerelease) :
    cmpList prCmp l [] ≠ .lt := by
  cases l <;> simp [cmpList]

/-- Appending the minimal identifier yields the immediate lexicographic
successor: anything strictly below `l ++ [Prerelease::MIN]` is at most `l`. -/
theorem cmpList_lt_append_min {m l : List Prerelease}
    (h : cmpList prCmp m (l ++ [Prerelease.MIN]) = .lt) :
    cmpList prCmp m l = .lt ∨ m = l := by
  induction m generalizing l with
  | nil =>
    cases l with
    | nil => exact Or.inr rfl
    | cons b bs => exact Or.inl rfl
  | cons a as ih =>
    cases l with
    | nil =>
      simp only [List.nil_append, cmpList, Ordering.then_eq_lt] at h
      rcases h with h | ⟨he, hl⟩
      · exact absurd h (prCmp_min a)
      · exact absurd hl (cmpList_nil_not_lt as)
    | cons b bs =>
      simp only [List.cons_append, cmpList, Ordering.then_eq_lt] at h
      rcases h with h | ⟨he, hl⟩
      · refine Or.inl ?_
        simp only [cmpList, Ordering.then_eq_lt]
        exact Or.inl h
      · rcases ih hl with h' | h'
        · refine Or.inl ?_
          simp only [cmpList, Ordering.then_eq_lt]
          exact Or.inr ⟨he, h'⟩
        · exact Or.inr (by rw [(prCmp_lawful.eq_iff a b).mp he, h'])

/-- A strict prefix sorts before its extension. -/
theorem cmpList_self_append {l x : List Prerelease} (hx : x ≠ []) :
    cmpList prCmp l (l ++ x) = .lt := by
  induction l with
  | nil =>
    cases x with
    | nil => exact absurd rfl hx
    | cons c cs => rfl
  | cons a as ih =>
    simp only [List.cons_append, cmpList]
    rw [prCmp_lawful.refl a]
    exact ih

/-- `preCmp l m = .lt` unfolded. -/
theorem preCmp_lt_iff (l m : List Prerelease) :
    preCmp l m = .lt ↔
      (l ≠ [] ∧ m = []) ∨ (l ≠ [] ∧ m ≠ [] ∧ cmpList prCmp l m = .lt) := by
  cases l <;> cases m <;> simp [preCmp, List.isEmpty]

/-- Nothing sorts strictly below an absent prerelease part... except that an
absent prerelease part sorts above everything with the same numeric triple,
so `preCmp [] m` is never `lt`. -/
theorem preCmp_nil_not_lt (m : List Prerelease) : preCmp [] m ≠ .lt := by
  cases m <;> simp [preCmp, List.isEmpty]

/-- Nothing sorts strictly between a version's prerelease list and that list
with `Prerelease::MIN` appended. -/
theorem preCmp_min_squeeze {l m : List Prerelease}
    (h₁ : preCmp l m = .lt) (h₂ : preCmp m (l ++ [Prerelease.MIN]) = .lt) :
    False := by
  rw [preCmp_lt_iff] at h₁ h₂
  rcases h₁ with ⟨hl, hm⟩ | ⟨hl, hm, hlt⟩
  · subst hm
    rcases h₂ with ⟨hc, _⟩ | ⟨hc, _, _⟩ <;> exact hc rfl
  · rcases h₂ with ⟨_, happ⟩ | ⟨_, _, hlt'⟩
    · exact (by simp : l ++ [Prerelease.MIN] ≠ []) happ
    · rcases cmpList_lt_append_min hlt' with h' | h'
      · exact (cmpList_lawful prCmp_lawful).lt_irrefl l
          ((cmpList_lawful prCmp_lawful).lt_trans hlt h')
      · rw [h'] at hlt
        exact (cmpList_lawful prCmp_lawful).lt_irrefl l hlt

theorem next_major (v : PureVersion) : v.next.major = v.major := rfl
theorem next_minor (v : PureVersion) : v.next.minor = v.minor := rfl
theorem next_pre (v : PureVersion) : v.next.pre = v.pre ++ [Prerelease.MIN] :=
  rfl

theorem next_patch (v : PureVersion) :
    v.next.patch = if v.pre.isEmpty then v.patch + 1 else v.patch := by
  unfold next is_prerelease
  cases h : v.pre.isEmpty <;> simp [h]

/-- A version sorts strictly below its successor. -/
theorem lt_next (v : PureVersion) : cmp v v.next = .lt := by
  rw [cmp_lt_iff, next_major, next_minor, next_patch, next_pre]
  refine Or.inr ⟨rfl, Or.inr ⟨rfl, ?_⟩⟩
  cases h : v.pre with
  | nil =>
    simp only [List.isEmpty_nil, reduceIte]
    exact Or.inl (Nat.lt_succ_self _)
  | cons p ps =>
    simp only [List.isEmpty_cons, Bool.false_eq_true, reduceIte]
    refine Or.inr ⟨by trivial, ?_⟩
    rw [preCmp_lt_iff]
    exact Or.inr ⟨by simp, by simp, cmpList_self_append (by simp)⟩

/-- `preCmp m [Prerelease.MIN] = .lt` is impossible: `[MIN]` is the immediate
successor of the empty prerelease part. -/
theorem preCmp_min_singleton_not_lt (m : List Prerelease) :
    preCmp m [Prerelease.MIN] ≠ .lt := by
  intro h
  rw [preCmp_lt_iff] at h
  rcases h with ⟨_, hmin⟩ | ⟨hne, _, hlt⟩
  · exact (by simp : ([Prerelease.MIN] : List Prerelease) ≠ []) hmin
  · have hlt' : cmpList prCmp m ([] ++ [Prerelease.MIN]) = .lt := by
      simpa using hlt
    rcases cmpList_lt_append_min hlt' with h' | h'
    · exact cmpList_nil_not_lt _ h'
    · exact hne h'

/-- No version sorts strictly between `v` and `v.next`. -/
theorem not_lt_lt_next (v w : PureVersion) (h₁ : cmp v w = .lt)
    (h₂ : cmp w v.next = .lt) : False := by
  rw [cmp_lt_iff, next_major, next_minor, next_patch, next_pre] at h₂
  rw [cmp_lt_iff] at h₁
  rcases h₁ with hM | ⟨hM, h₁⟩ <;> rcases h₂ with hM' | ⟨hM', h₂⟩
  · omega
  · omega
  · omega
  rcases h₁ with hN | ⟨hN, h₁⟩ <;> rcases h₂ with hN' | ⟨hN', h₂⟩
  · omega
  · omega
  · omega
  cases hpre : v.pre with
  | nil =>
    rw [hpre] at h₁ h₂
    simp only [List.isEmpty_nil, reduceIte, List.nil_append] at h₂
    rcases h₁ with hP | ⟨hP, h₁⟩
    · rcases h₂ with hP' | ⟨hP', h₂⟩
      · omega
      · exact preCmp_min_singleton_not_lt _ h₂
    · exact preCmp_nil_not_lt _ h₁
  | cons p ps =>
    rw [hpre] at h₁ h₂
    simp only [List.isEmpty_cons, Bool.false_eq_true, reduceIte] at h₂
    rcases h₁ with hP | ⟨hP, h₁⟩ <;> rcases h₂ with hP' | ⟨hP', h₂⟩
    · omega
    · omega
    · omega
    · exact preCmp_min_squeeze h₁ h₂

/-- A valid `PureVersion` value: the `patch` field is an actual `u64` value
and the construction invariant holds — `patch == u64::MAX` together with an
empty prerelease list is disallowed. -/
def Wf (v : PureVersion) : Prop :=
  v.patch ≤ UMAX ∧ ¬(v.patch = UMAX ∧ v.pre = [])

instance : DecidablePred Wf := fun v => by unfold Wf; infer_instance

theorem is_prerelease_false_iff (v : PureVersion) :
    v.is_prerelease = false ↔ v.pre = [] := by
  unfold is_prerelease
  cases v.pre <;> simp

/-- On valid versions the Rust `next` does not overflow: the panicking model
agrees with the total one. -/
theorem next?_eq_next {v : PureVersion} (h : Wf v) : v.next? = some v.next := by
  obtain ⟨hb, hinv⟩ := h
  unfold next? next
  cases hp : v.is_prerelease with
  | false =>
    have hpre : v.pre = [] := (is_prerelease_false_iff v).mp hp
    have hlt : v.patch + 1 ≤ UMAX := by
      rcases Nat.lt_or_ge v.patch UMAX with hc | hc
      · omega
      · exact absurd ⟨by omega, hpre⟩ hinv
    simp [hp, hlt]
  | true => simp [hp]

/-- The successor of any version has a predecessor. -/
theorem has_prev_next (v : PureVersion) : v.next.has_prev = true := by
  unfold has_prev
  rw [next_pre, next_patch, List.getLast?_concat]
  cases hp : v.pre with
  | nil => simp
  | cons p ps => simp

/-- Rendering the predecessor of `v.next` gives back exactly the rendering
of `v`. -/
theorem display_prev_next (v : PureVersion) :
    v.next.display_prev = some v.render := by
  unfold display_prev render
  rw [has_prev_next]
  simp only [Bool.not_true, Bool.false_eq_true, reduceIte]
  rw [next_pre, next_patch, next_major, next_minor, List.dropLast_concat]
  cases hp : v.pre with
  | nil => simp
  | cons p ps => simp

/-- A prerelease list of length one whose last element is `MIN` is `[MIN]`. -/
theorem eq_min_of_singleton {l : List Prerelease}
    (hlen : l.length = 1) (hlast : l.getLast? = some Prerelease.MIN) :
    l = [Prerelease.MIN] := by
  cases l with
  | nil => simp at hlen
  | cons x xs =>
    cases xs with
    | nil => simpa [List.getLast?] using hlast
    | cons y ys => simp at hlen

/-- `compare_next_to` answers exactly "is `b` the successor of `a`". -/
theorem compare_next_to_iff_next (a b : PureVersion) :
    a.compare_next_to b = true ↔ a.next = b := by
  unfold compare_next_to
  constructor
  · intro h
    simp only [Bool.and_eq_true, beq_iff_eq] at h
    obtain ⟨⟨⟨hprev, hmaj⟩, hmin⟩, hrest⟩ := h
    unfold has_prev at hprev
    simp only [Bool.and_eq_true, beq_iff_eq] at hprev
    obtain ⟨hlast, _⟩ := hprev
    cases hp : a.is_prerelease with
    | true =>
      rw [hp] at hrest
      simp only [if_true, Bool.and_eq_true, beq_iff_eq] at hrest
      obtain ⟨hpatch, hpre⟩ := hrest
      have hbne : b.pre ≠ [] := by
        intro hnil
        rw [hnil] at hlast
        simp at hlast
      have hb : b.pre.dropLast ++ [Prerelease.MIN] = b.pre := by
        conv_rhs => rw [← List.dropLast_append_getLast hbne]
        rw [List.getLast?_eq_getLast _ hbne] at hlast
        simp only [Option.some.injEq] at hlast
        rw [hlast]
      cases b with
      | mk bM bN bP bL =>
        unfold next
        simp only [PureVersion.mk.injEq] at *
        rw [hp]
        exact ⟨hmaj, hmin, by simpa using hpatch, by rw [hpre]; exact hb⟩
    | false =>
      rw [hp] at hrest
      simp only [Bool.false_eq_true, reduceIte, Bool.and_eq_true, beq_iff_eq]
        at hrest
      obtain ⟨hpatch, hlen⟩ := hrest
      have hpre : a.pre = [] := (is_prerelease_false_iff a).mp hp
      have hb : b.pre = [Prerelease.MIN] := eq_min_of_singleton hlen hlast
      cases b with
      | mk bM bN bP bL =>
        unfold next
        simp only [PureVersion.mk.injEq] at *
        rw [hp]
        exact ⟨hmaj, hmin, hpatch, by rw [hpre]; simpa using hb.symm⟩
  · intro h
    subst h
    simp only [Bool.and_eq_true, beq_iff_eq]
    refine ⟨⟨⟨has_prev_next a, rfl⟩, rfl⟩, ?_⟩
    cases hp : a.is_prerelease with
    | true =>
      simp only [if_true]
      rw [next_patch, next_pre, List.dropLast_concat]
      have hemp : a.pre.isEmpty = false := by
        unfold is_prerelease at hp
        cases h : a.pre.isEmpty
        · rfl
        · rw [h] at hp; cases hp
      simp [hemp]
    | false =>
      simp only [Bool.false_eq_true, reduceIte]
      rw [next_patch, next_pre]
      have hpre : a.pre = [] := (is_prerelease_false_iff a).mp hp
      simp [hpre]

end PureVersion

/-! ## The `RangeExtreme` trait and `Range<T>` (model of `src/range.rs`)

Rust's `Ord`-based comparisons (`<`, `<=`, `>=`, `max`, `min`, `==`) are
expressed through the instance's `cmp`.  Every implementation in the crate
spells out `compare_next_to` explicitly (the numeric macro as
`self.next() == *other`, `PureVersion` with its own field-wise test), so the
class carries it as an ordinary field. -/

class RangeExtreme (T : Type) where
  cmp : T → T → Ordering
  MIN : T
  MAX : T
  next : T → T
  compare_next_to : T → T → Bool

/-- The instance's comparator satisfies the `Ord` laws (Rust's `Ord`
contract, which the algebra relies on). -/
class LawfulRangeExtreme (T : Type) [RangeExtreme T] : Prop where
  lawful : LawfulCmp (RangeExtreme.cmp (T := T))

section RangeDefs

variable {T : Type} [RangeExtreme T]

/-- Rust `a <= b`. -/
def rle (a b : T) : Bool := decide (RangeExtreme.cmp a b ≠ .gt)

/-- Rust `a < b`. -/
def rlt (a b : T) : Bool := decide (RangeExtreme.cmp a b = .lt)

/-- Rust `a >= b`. -/
def rge (a b : T) : Bool := decide (RangeExtreme.cmp a b ≠ .lt)

/-- Rust `std::cmp::max` (returns the second argument on ties). -/
def rmax (a b : T) : T := if RangeExtreme.cmp a b = .gt then a else b

/-- Rust `std::cmp::min` (returns the first argument on ties). -/
def rmin (a b : T) : T := if RangeExtreme.cmp a b = .gt then b else a

/-- `Range<T>`: a half-open interval `[start, end)` of boundary values. -/
structure Range (T : Type) where
  start : T
  end_ : T
deriving DecidableEq

namespace Range

/-- `Range::EMPTY`. -/
def EMPTY : Range T := ⟨RangeExtreme.MAX, RangeExtreme.MAX⟩

/-- `Range::FULL`. -/
def FULL : Range T := ⟨RangeExtreme.MIN, RangeExtreme.MAX⟩

/-- `Range::between`: `[start, end)`, normalising `start >= end` to `EMPTY`
so that all empty ranges are considered equal. -/
def between (start end_ : T) : Range T :=
  if rge start end_ then EMPTY else ⟨start, end_⟩

/-- `Range::between_exclude_start`. -/
def between_exclude_start (start end_ : T) : Range T :=
  between (RangeExtreme.next start) end_

/-- `Range::between_include_end`. -/
def between_include_end (start end_ : T) : Range T :=
  between start (RangeExtreme.next end_)

/-- `Range::between_exclude_start_include_end`. -/
def between_exclude_start_include_end (start end_ : T) : Range T :=
  between (RangeExtreme.next start) (RangeExtreme.next end_)

/-- `Range::from`. -/
def from_ (start : T) : Range T := between start RangeExtreme.MAX

/-- `Range::from_exclusive`. -/
def from_exclusive (start : T) : Range T := from_ (RangeExtreme.next start)

/-- `Range::to`. -/
def to_ (end_ : T) : Range T := between RangeExtreme.MIN end_

/-- `Range::to_inclusive`. -/
def to_inclusive (end_ : T) : Range T := to_ (RangeExtreme.next end_)

/-- `Range::single`. -/
def single (value : T) : Range T := between_include_end value value

/-- `Range::is_single`. -/
def is_single (r : Range T) : Bool :=
  RangeExtreme.compare_next_to r.start r.end_

/-- `Range::is_empty`: structural equality with `EMPTY`. -/
def is_empty [DecidableEq T] (r : Range T) : Bool := r = EMPTY

/-- `Range::contains`. -/
def contains (r : Range T) (value : T) : Bool :=
  rle r.start value && rlt value r.end_

/-- `Range::contains_range`. -/
def contains_range [DecidableEq T] (r other : Range T) : Bool :=
  if other.is_empty then true
  else rle r.start other.start && rle other.end_ r.end_

/-- `Range::intersect`. -/
def intersect [DecidableEq T] (r other : Range T) : Bool :=
  if r.is_empty || other.is_empty then false
  else rlt r.start other.end_ && rlt other.start r.end_

/-- `Range::intersection`. -/
def intersection [DecidableEq T] (r other : Range T) : Range T :=
  if !(r.intersect other) then EMPTY
  else between (rmax r.start other.start) (rmin r.end_ other.end_)

end Range

end RangeDefs

section RangeLemmas

variable {T : Type} [RangeExtreme T]

theorem Range.contains_eq_true_iff (r : Range T) (v : T) :
    r.contains v = true ↔
      (RangeExtreme.cmp r.start v ≠ .gt ∧ RangeExtreme.cmp v r.end_ = .lt) := by
  unfold Range.contains rle rlt
  simp

theorem Range.empty_not_contains [LawfulRangeExtreme T] (v : T) :
    (Range.EMPTY (T := T)).contains v = false := by
  have hf := LawfulRangeExtreme.lawful (T := T)
  rw [← Bool.not_eq_true, Range.contains_eq_true_iff]
  rintro ⟨h₁, h₂⟩
  exact h₁ ((hf.gt_iff_lt _ _).mpr h₂)

theorem Range.contains_between_iff [LawfulRangeExtreme T] (x y v : T) :
    (Range.between x y).contains v = true ↔
      (RangeExtreme.cmp x v ≠ .gt ∧ RangeExtreme.cmp v y = .lt) := by
  have hf := LawfulRangeExtreme.lawful (T := T)
  unfold Range.between
  split
  · rename_i h
    unfold rge at h
    rw [decide_eq_true_iff] at h
    refine iff_of_false (by simp [Range.empty_not_contains]) ?_
    rintro ⟨h₁, h₂⟩
    have hyx : RangeExtreme.cmp y x ≠ .gt := fun hc =>
      h ((hf.gt_iff_lt y x).mp hc)
    have hvx : RangeExtreme.cmp v x = .lt := hf.lt_of_lt_of_le h₂ hyx
    exact h₁ ((hf.gt_iff_lt x v).mpr hvx)
  · exact Range.contains_eq_true_iff ⟨x, y⟩ v

theorem Range.is_empty_iff [DecidableEq T] (r : Range T) :
    r.is_empty = true ↔ r = Range.EMPTY := by
  unfold Range.is_empty
  simp

theorem rmax_le_iff [LawfulRangeExtreme T] (a b v : T) :
    RangeExtreme.cmp (rmax a b) v ≠ .gt ↔
      (RangeExtreme.cmp a v ≠ .gt ∧ RangeExtreme.cmp b v ≠ .gt) := by
  have hf := LawfulRangeExtreme.lawful (T := T)
  unfold rmax
  split
  · rename_i h
    constructor
    · intro hav
      have hba : RangeExtreme.cmp b a = .lt := (hf.gt_iff_lt a b).mp h
      exact ⟨hav, LawfulCmp.le_of_lt (hf.lt_of_lt_of_le hba hav)⟩
    · exact fun hx => hx.1
  · rename_i h
    constructor
    · intro hbv
      exact ⟨hf.le_trans h hbv, hbv⟩
    · exact fun hx => hx.2

theorem rmin_lt_iff [LawfulRangeExtreme T] (a b v : T) :
    RangeExtreme.cmp v (rmin a b) = .lt ↔
      (RangeExtreme.cmp v a = .lt ∧ RangeExtreme.cmp v b = .lt) := by
  have hf := LawfulRangeExtreme.lawful (T := T)
  unfold rmin
  split
  · rename_i h
    constructor
    · intro hv
      have hba : RangeExtreme.cmp b a = .lt := (hf.gt_iff_lt a b).mp h
      exact ⟨hf.lt_trans hv hba, hv⟩
    · exact fun hx => hx.2
  · rename_i h
    constructor
    · intro hv
      exact ⟨hv, hf.lt_of_lt_of_le hv h⟩
    · exact fun hx => hx.1

/-- Membership in an intersection is exactly simultaneous membership. -/
theorem Range.intersection_contains_iff [DecidableEq T] [LawfulRangeExtreme T]
    (a b : Range T) (v : T) :
    (a.intersection b).contains v = (a.contains v && b.contains v) := by
  have hf := LawfulRangeExtreme.lawful (T := T)
  rw [Bool.eq_iff_iff, Bool.and_eq_true]
  constructor
  · intro hc
    unfold Range.intersection at hc
    split at hc
    · rw [Range.empty_not_contains] at hc
      cases hc
    · rename_i hint
      rw [Range.contains_between_iff, rmax_le_iff, rmin_lt_iff] at hc
      obtain ⟨⟨ha₁, hb₁⟩, ha₂, hb₂⟩ := hc
      exact ⟨(Range.contains_eq_true_iff a v).mpr ⟨ha₁, ha₂⟩,
        (Range.contains_eq_true_iff b v).mpr ⟨hb₁, hb₂⟩⟩
  · rintro ⟨ha, hb⟩
    obtain ⟨ha₁, ha₂⟩ := (Range.contains_eq_true_iff a v).mp ha
    obtain ⟨hb₁, hb₂⟩ := (Range.contains_eq_true_iff b v).mp hb
    have hint : a.intersect b = true := by
      unfold Range.intersect
      split
      · rename_i h
        rw [Bool.or_eq_true, Range.is_empty_iff, Range.is_empty_iff] at h
        rcases h with h | h
        · rw [h, Range.empty_not_contains] at ha
          cases ha
        · rw [h, Range.empty_not_contains] at hb
          cases hb
      · unfold rlt
        simp only [Bool.and_eq_true, decide_eq_true_iff]
        exact ⟨hf.lt_of_le_of_lt ha₁ hb₂, hf.lt_of_le_of_lt hb₁ ha₂⟩
    unfold Range.intersection
    rw [hint]
    simp only [Bool.not_true, Bool.false_eq_true, reduceIte]
    rw [Range.contains_between_iff, rmax_le_iff, rmin_lt_iff]
    exact ⟨⟨ha₁, hb₁⟩, ha₂, hb₂⟩

end RangeLemmas

/-! ## Instances of the boundary contract -/

/-- `impl range::RangeExtreme for PureVersion` (delegating to the inherent
methods) plus the `RangeExtremeDisplay` items, which live directly on
`PureVersion` in this embedding. -/
instance : RangeExtreme PureVersion where
  cmp := PureVersion.cmp
  MIN := PureVersion.MIN
  MAX := PureVersion.MAX
  next := PureVersion.next
  compare_next_to := PureVersion.compare_next_to

instance : LawfulRangeExtreme PureVersion := ⟨PureVersion.cmp_lawful⟩

/-- Model of `u64` (the `impl_numeric!` instantiation used by the tests):
a bounded natural.  `next` is `self + 1`; `Fin` addition wraps, which is the
release-profile behaviour — the debug-profile overflow panic is modelled
separately by `numericNext`. -/
abbrev U64 := Fin (2 ^ 64)

instance : RangeExtreme U64 where
  cmp a b := natCmp a.val b.val
  MIN := ⟨0, by norm_num⟩
  MAX := ⟨2 ^ 64 - 1, by norm_num⟩
  next v := v + 1
  compare_next_to a b := decide (a + 1 = b)

instance : LawfulRangeExtreme U64 :=
  ⟨LawfulCmp.pullback Fin.val Fin.val_injective natCmp_lawful⟩

/-- Debug-profile model of the numeric `RangeExtreme::next` (`self + 1`) for
a machine-integer type with maximum value `hi` (covers every instantiation
`u8 u16 u32 u64 u128 i8 i16 i32 i64 i128` through its `hi`): the addition
panics on overflow, modelled as `none`. -/
def numericNext (hi : Int) (v : Int) : Option Int :=
  if v + 1 ≤ hi then some (v + 1) else none

/-! ## String parsing (models of the `FromStr` implementations)

Strings are handled as their character lists.  The regexes of the source are
translated to deterministic character scans (each regex in play forces
maximal munch, see the individual comments). -/

/-- `str::split(sep)`: splits on every occurrence, keeping empty pieces
(`"a,,b"` gives three pieces, `""` gives one empty piece). -/
def splitOnCharAux (sep : Char) : List Char → List Char → List (List Char)
  | [], acc => [acc.reverse]
  | c :: rest, acc =>
    if c = sep then acc.reverse :: splitOnCharAux sep rest []
    else splitOnCharAux sep rest (c :: acc)

def splitOnChar (sep : Char) (cs : List Char) : List (List Char) :=
  splitOnCharAux sep cs []

/-- `str::splitn(n, sep)`: at most `n` pieces, the last one keeping the
remaining separators. -/
def splitNChar (n : Nat) (sep : Char) (cs : List Char) : List (List Char) :=
  match n with
  | 0 => []
  | 1 => [cs]
  | n + 2 =>
    match cs.dropWhile (· ≠ sep) with
    | _ :: rest => cs.takeWhile (· ≠ sep) :: splitNChar (n + 1) sep rest
    | [] => [cs]

/-- `str::trim` (the inputs in play only contain ASCII whitespace). -/
def trimChars (cs : List Char) : List Char :=
  ((cs.dropWhile Char.isWhitespace).reverse.dropWhile Char.isWhitespace).reverse

/-- `str::trim_start`. -/
def trimStartChars (cs : List Char) : List Char :=
  cs.dropWhile Char.isWhitespace

/-- `str::strip_prefix` for a literal: returns the remainder when the
string starts with the pattern. -/
def matchHead : List Char → List Char → Option (List Char)
  | [], cs => some cs
  | _ :: _, [] => none
  | p :: ps, c :: cs => if c = p then matchHead ps cs else none

/-- Decimal value of a digit string. -/
def digitsToNat (cs : List Char) : Nat :=
  cs.foldl (fun acc c => acc * 10 + (c.toNat - '0'.toNat)) 0

/-- The numeral fragment `0|[1-9]\d*` of the version regex: digits, no
leading zero unless the literal `0`. -/
def isNumeral : List Char → Bool
  | [] => false
  | c :: rest =>
    c.isDigit && rest.all (fun d => d.isDigit) && (c ≠ '0' || rest.isEmpty)

/-- `u64::from_str`: optional leading `+`, then decimal digits; fails on an
empty/invalid digit sequence and on overflow past `u64::MAX`. -/
def parseU64Str (cs : List Char) : Option Nat :=
  let digits := match cs with | '+' :: r => r | _ => cs
  if digits.isEmpty || !digits.all (fun d => d.isDigit) then none
  else if digitsToNat digits ≤ UMAX then some (digitsToNat digits) else none

/-- A character admitted inside prerelease identifiers (`[0-9a-zA-Z-]`). -/
def isIdentChar (c : Char) : Bool := c.isAlphanum || c = '-'

/-- Whether `[1-9]\d*$` matches somewhere in the string: some position holds
a digit `1`-`9` followed only by digits up to the end. -/
def hasTailNumMatch : List Char → Bool
  | [] => false
  | c :: rest =>
    (c.isDigit && c ≠ '0' && rest.all (fun d => d.isDigit)) ||
      hasTailNumMatch rest

/-- The first pattern of `Prerelease::from_str`, `^0|[1-9]\d*$`, exactly as
written: the alternation is NOT grouped, so it matches any string that
starts with `0` — or any string in which `[1-9]\d*` matches a suffix. -/
def matchesNumericRegex (cs : List Char) : Bool :=
  (match cs with | '0' :: _ => true | _ => false) || hasTailNumMatch cs

/-- The second pattern, `^\d*[a-zA-Z-][0-9a-zA-Z-]*$`: non-empty, every
character in `[0-9a-zA-Z-]`, and at least one non-digit. -/
def matchesAlphaRegex (cs : List Char) : Bool :=
  !cs.isEmpty && cs.all isIdentChar && cs.any (fun c => !c.isDigit)

/-- A token of the version regex's prerelease tail,
`0|[1-9]\d*|\d*[a-zA-Z-][0-9a-zA-Z-]*` (properly grouped there). -/
def isPreToken (cs : List Char) : Bool :=
  isNumeral cs || matchesAlphaRegex cs

/-- `InvalidPrerelease` (payloads that only carry diagnostics text kept,
error sources elided where the claims do not inspect them). -/
inductive InvalidPrerelease : Type where
  | empty
  | leadingZeros (id : String)
  | invalidCharacters (id : String) (ch : Char)
deriving DecidableEq

/-- `debug_invalid_identifier`: rebuilds the reason the prerelease regexes
failed; `none` models its `unreachable!` panic. -/
def debugInvalidIdentifier (cs : List Char) : Option InvalidPrerelease :=
  if cs.isEmpty then some .empty
  else
    match cs.find? (fun c => !isIdentChar c) with
    | some ch => some (.invalidCharacters ⟨cs⟩ ch)
    | none =>
      if cs.all (fun c => c.isDigit) then
        match cs with
        | '0' :: _ :: _ => some (.leadingZeros ⟨cs⟩)
        | _ => none
      else none

/-- `Prerelease::from_str` (`regex_switch!`): tries the mis-anchored numeric
pattern first — when it matches, `s.parse::<BigUint>()` is `expect`ed, which
panics (`none`) when the full string is not a plain digit sequence (the
call sites only feed it digit strings, so the `+` sign `BigUint` would
accept cannot occur). -/
def prereleaseFromStr (cs : List Char) :
    Option (Except InvalidPrerelease Prerelease) :=
  if matchesNumericRegex cs then
    if !cs.isEmpty && cs.all (fun c => c.isDigit) then
      some (.ok (.numeric (digitsToNat cs)))
    else none
  else if matchesAlphaRegex cs then some (.ok (.alpha ⟨cs⟩))
  else (debugInvalidIdentifier cs).map .error

deriving instance DecidableEq for Except

/-- `NumericPart`. -/
inductive NumericPart : Type where
  | major
  | minor
  | patch
deriving DecidableEq

/-- `InvalidPureVersion` (the `ParseIntError` sources attached by the code,
which the claims never inspect, are elided). -/
inductive InvalidPureVersion : Type where
  | numericPartTooLong (part : NumericPart)
  | missingNumericPart (part : NumericPart)
  | extraBeforePrereleases (extra : String)
  | invalidNumericPart (part : NumericPart) (value : String)
  | invalidPrerelease (source : InvalidPrerelease)
  | patchCannotBeUIntMax
deriving DecidableEq

/-- The anchored match of the `PureVersion` regex
`^(0|[1-9]\d*)\.(0|[1-9]\d*)\.(0|[1-9]\d*)(?:-(TOKEN(\.TOKEN)*))?$`.
Major and minor are delimited by the literal dots, patch by the end of the
digit run (each group only matches digit strings followed by a fixed
non-digit delimiter, so maximal munch is forced).  Returns the four capture
groups (the prerelease part empty when absent). -/
def matchVersionRegex (cs : List Char) :
    Option (List Char × List Char × List Char × List Char) :=
  match cs.dropWhile (· ≠ '.') with
  | '.' :: rest₁ =>
    match rest₁.dropWhile (· ≠ '.') with
    | '.' :: rest₂ =>
      let major := cs.takeWhile (· ≠ '.')
      let minor := rest₁.takeWhile (· ≠ '.')
      let patch := rest₂.takeWhile (fun c => c.isDigit)
      let tail := rest₂.dropWhile (fun c => c.isDigit)
      let preOk : Bool :=
        match tail with
        | [] => true
        | '-' :: preChars => (splitOnChar '.' preChars).all isPreToken
        | _ => false
      if isNumeral major && isNumeral minor && isNumeral patch && preOk then
        some (major, minor, patch,
          match tail with | '-' :: preChars => preChars | _ => [])
      else none
    | _ => none
  | _ => none

/-- `PureVersion::from_checked_parts_splitted`: parses the three numeric
parts as `u64` (`NumericPartTooLong` on failure — at its call sites the
strings are digit runs, so only overflow can fail) and enforces the
`patch == u64::MAX && pre.is_empty()` rejection. -/
def fromCheckedPartsSplitted (major minor patch : List Char)
    (pre : List Prerelease) : Except InvalidPureVersion PureVersion :=
  match parseU64Str major with
  | none => .error (.numericPartTooLong .major)
  | some M =>
    match parseU64Str minor with
    | none => .error (.numericPartTooLong .minor)
    | some m =>
      match parseU64Str patch with
      | none => .error (.numericPartTooLong .patch)
      | some p =>
        if p = UMAX ∧ pre = [] then .error .patchCannotBeUIntMax
        else .ok ⟨M, m, p, pre⟩

/-- `PureVersion::from_checked_parts`: splits the prerelease part on `.` and
converts each token with `Prerelease::from_str`, `expect`ing success
(`none` models that panic). -/
def fromCheckedParts (major minor patch pre : List Char) :
    Option (Except InvalidPureVersion PureVersion) :=
  let preList : Option (List Prerelease) :=
    if pre.isEmpty then some []
    else
      (splitOnChar '.' pre).mapM fun t =>
        match prereleaseFromStr t with
        | some (.ok p) => some p
        | _ => none
  match preList with
  | none => none
  | some l => some (fromCheckedPartsSplitted major minor patch l)

/-- The prerelease scan of `debug_invalid_pure_version`: `some (some e)`
when a token fails to parse, `some none` when all parse (leading to the
`unreachable!`), `none` when `Prerelease::from_str` itself panics. -/
def firstPreErr : List (List Char) → Option (Option InvalidPrerelease)
  | [] => some none
  | t :: rest =>
    match prereleaseFromStr t with
    | none => none
    | some (.error e) => some (some e)
    | some (.ok _) => firstPreErr rest

/-- Continuation of `debug_invalid_pure_version` when exactly the three
numeric parts are present: the numeric and prerelease scans. -/
def debugInvalidNumerics (major minor patch pre : List Char) :
    Option InvalidPureVersion :=
  if (parseU64Str major).isNone then
    some (.invalidNumericPart .major ⟨major⟩)
  else if (parseU64Str minor).isNone then
    some (.invalidNumericPart .minor ⟨minor⟩)
  else if (parseU64Str patch).isNone then
    some (.invalidNumericPart .patch ⟨patch⟩)
  else if pre.isEmpty then none
  else
    match firstPreErr (splitOnChar '.' pre) with
    | none => none
    | some (some e) => some (.invalidPrerelease e)
    | some none => none

/-- `debug_invalid_pure_version`: diagnoses why the regex failed; `none`
models its `unreachable!` panics. -/
def debugInvalidPureVersion (cs : List Char) : Option InvalidPureVersion :=
  let version := cs.takeWhile (· ≠ '-')
  let pre := match cs.dropWhile (· ≠ '-') with | _ :: r => r | [] => []
  match splitNChar 4 '.' version with
  | [] => some (.missingNumericPart .major)
  | [_major] => some (.missingNumericPart .minor)
  | [_major, _minor] => some (.missingNumericPart .patch)
  | [major, minor, patch] => debugInvalidNumerics major minor patch pre
  | _ :: _ :: _ :: extra :: _ => some (.extraBeforePrereleases ⟨extra⟩)

/-- `FromStr for PureVersion`: the regex match feeding
`from_checked_parts`, with `debug_invalid_pure_version` on failure.  The
outer `Option` models the panics inside those helpers. -/
def pureVersionFromStr (cs : List Char) :
    Option (Except InvalidPureVersion PureVersion) :=
  match matchVersionRegex cs with
  | some (major, minor, patch, pre) => fromCheckedParts major minor patch pre
  | none => (debugInvalidPureVersion cs).map .error

/-- `RangeParseError`. -/
inductive RangeParseError (ε : Type) : Type where
  | parseExtreme (source : ε)
  | unrecognizedConstraintOperator (constraint : String)
deriving DecidableEq

/-- The operator dispatch of `FromStr for Range<T>`: the five
`strip_prefix` tests, in source order, paired with the constructor each
selects. -/
def stripConstraintOp {T : Type} [RangeExtreme T] (cs : List Char) :
    Option ((T → Range T) × List Char) :=
  match matchHead ['<', '='] cs with
  | some rest => some (Range.to_inclusive, rest)
  | none =>
    match matchHead ['<'] cs with
    | some rest => some (Range.to_, rest)
    | none =>
      match matchHead ['>', '='] cs with
      | some rest => some (Range.from_, rest)
      | none =>
        match matchHead ['>'] cs with
        | some rest => some (Range.from_exclusive, rest)
        | none =>
          match matchHead ['=', '='] cs with
          | some rest => some (Range.single, rest)
          | none => none

/-- The constraint loop of `FromStr for Range<T>`: starts from `FULL`,
intersects one constraint at a time, returns the first failure as the
error, and stops early (with `Ok`) as soon as the range becomes empty.  The
empty constraint is skipped; the constraint `!` short-circuits to
`Ok(EMPTY)`. -/
def fromConstraints {T ε : Type} [RangeExtreme T] [DecidableEq T]
    (parseT : List Char → Option (Except ε T)) :
    List (List Char) → Range T → Option (Except (RangeParseError ε) (Range T))
  | [], range => some (.ok range)
  | c :: rest, range =>
    let c := trimChars c
    if c.isEmpty then fromConstraints parseT rest range
    else if c = ['!'] then some (.ok Range.EMPTY)
    else
      match stripConstraintOp (T := T) c with
      | none => some (.error (.unrecognizedConstraintOperator ⟨c⟩))
      | some (fn, extreme) =>
        match parseT (trimStartChars extreme) with
        | none => none
        | some (.error e) => some (.error (.parseExtreme e))
        | some (.ok t) =>
          let range := range.intersection (fn t)
          if range.is_empty then some (.ok range)
          else fromConstraints parseT rest range

/-- `FromStr for Range<T>`: split on `,` and run the constraint loop. -/
def rangeFromStr {T ε : Type} [RangeExtreme T] [DecidableEq T]
    (parseT : List Char → Option (Except ε T)) (s : String) :
    Option (Except (RangeParseError ε) (Range T)) :=
  fromConstraints parseT (splitOnChar ',' s.data) Range.FULL

/-- The `ParseIntError` kinds `u64::from_str` can produce. -/
inductive ParseIntErrorM : Type where
  | empty
  | invalidDigit
  | posOverflow
deriving DecidableEq

/-- `u64::from_str` with its error taxonomy (for `Range<u64>` parsing). -/
def parseU64FromStr (cs : List Char) : Except ParseIntErrorM U64 :=
  match cs with
  | [] => .error .empty
  | _ =>
    let digits := match cs with | '+' :: r => r | _ => cs
    if digits.isEmpty || !digits.all (fun d => d.isDigit) then
      .error .invalidDigit
    else if h : digitsToNat digits ≤ UMAX then
      .ok ⟨digitsToNat digits, Nat.lt_of_le_of_lt h (by norm_num [UMAX])⟩
    else .error .posOverflow

/-- `Range::<u64>::from_str`. -/
def rangeFromStrU64 (s : String) :
    Option (Except (RangeParseError ParseIntErrorM) (Range U64)) :=
  rangeFromStr (fun cs => some (parseU64FromStr cs)) s

/-- `Range::<PureVersion>::from_str`. -/
def rangeFromStrPV (s : String) :
    Option (Except (RangeParseError InvalidPureVersion) (Range PureVersion)) :=
  rangeFromStr pureVersionFromStr s

theorem PureVersion.is_prerelease_true_iff (v : PureVersion) :
    v.is_prerelease = true ↔ v.pre ≠ [] := by
  unfold PureVersion.is_prerelease
  cases v.pre <;> simp

/-! ## The claims -/

/-- **C1, counterexample.**  The claim asserts `next` is total — defined in
particular on the `MAX` sentinel — for every numeric instantiation and for
`PureVersion`.  It is not: the numeric `next` is `self + 1`, which overflows
at `MAX` (`u8::MAX = 255` shown; the model returns `none` for the
debug-profile panic), and `PureVersion::next` increments `patch` (a `u64` at
`u64::MAX`) when the prerelease list is empty, which is exactly the state of
`PureVersion::MAX`. -/
theorem claim_c1_counterexample :
    numericNext 255 255 = none ∧
    PureVersion.next? PureVersion.MAX = none := by
  constructor
  · decide
  · decide

/-- **C1, amended.**  On every value strictly below the type's maximum
(every valid `PureVersion` for the version instantiation), `next` is defined
and no value lies strictly between `v` and `next v`; at `MAX` the addition
overflows. -/
theorem claim_c1_amended :
    (∀ hi v : Int, v < hi →
      numericNext hi v = some (v + 1) ∧ ¬∃ w : Int, v < w ∧ w < v + 1) ∧
    (∀ v : PureVersion, PureVersion.Wf v → v.next? = some v.next) ∧
    (∀ v : PureVersion, PureVersion.cmp v v.next = .lt) ∧
    (∀ v w : PureVersion,
      PureVersion.cmp v w = .lt → PureVersion.cmp w v.next = .lt → False) := by
  refine ⟨?_, ?_, PureVersion.lt_next, PureVersion.not_lt_lt_next⟩
  · intro hi v h
    refine ⟨by unfold numericNext; rw [if_pos (by omega)], ?_⟩
    rintro ⟨w, h₁, h₂⟩
    omega
  · intro v h
    exact PureVersion.next?_eq_next h

/-- **C1, witness.** -/
theorem claim_c1_witness :
    (numericNext 255 3 = some (3 + 1) ∧ ¬∃ w : Int, 3 < w ∧ w < 3 + 1) ∧
    PureVersion.next? ⟨1, 2, 3, []⟩ = some (PureVersion.next ⟨1, 2, 3, []⟩) :=
  ⟨claim_c1_amended.1 255 3 (by decide),
   claim_c1_amended.2.1 ⟨1, 2, 3, []⟩ (by decide)⟩

/-- **C2.**  For every valid `PureVersion` `v`, the successor has a
predecessor and its rendered predecessor is exactly the rendering of `v`
(successor and predecessor are inverses on the reachable subset). -/
theorem claim_c2 (v : PureVersion) (_h : PureVersion.Wf v) :
    PureVersion.has_prev v.next = true ∧
    PureVersion.display_prev v.next = some (PureVersion.render v) :=
  ⟨PureVersion.has_prev_next v, PureVersion.display_prev_next v⟩

/-- **C2, witness.** -/
theorem claim_c2_witness :
    PureVersion.has_prev (PureVersion.next ⟨1, 2, 3, []⟩) = true ∧
    PureVersion.display_prev (PureVersion.next ⟨1, 2, 3, []⟩) =
      some (PureVersion.render ⟨1, 2, 3, []⟩) :=
  claim_c2 ⟨1, 2, 3, []⟩ (by decide)

/-- **C3, counterexample.**  The claim says `has_prev` holds iff the
prerelease list is non-empty and ends in the minimal token, *with no further
condition* — but `0.0.0-0` (`MIN`) satisfies both conditions and
`has_prev` still returns `false` (the code additionally requires
`patch != 0` when the minimal token is the only one). -/
theorem claim_c3_counterexample :
    (⟨0, 0, 0, [Prerelease.MIN]⟩ : PureVersion).pre ≠ [] ∧
    (⟨0, 0, 0, [Prerelease.MIN]⟩ : PureVersion).pre.getLast? =
      some Prerelease.MIN ∧
    PureVersion.has_prev ⟨0, 0, 0, [Prerelease.MIN]⟩ = false := by
  refine ⟨by simp, by decide, by decide⟩

/-- **C3, amended.**  `has_prev v` is true iff `v`'s prerelease list is
non-empty and ends in the minimal numeric-zero token, and additionally —
when that token is the only prerelease entry — `patch` is non-zero. -/
theorem claim_c3_amended (v : PureVersion) :
    PureVersion.has_prev v = true ↔
      (v.pre ≠ [] ∧ v.pre.getLast? = some Prerelease.MIN ∧
        (v.pre.length = 1 → v.patch ≠ 0)) := by
  unfold PureVersion.has_prev
  simp only [Bool.and_eq_true, beq_iff_eq]
  cases hp : v.pre with
  | nil => simp
  | cons p ps =>
    constructor
    · rintro ⟨hlast, hcond⟩
      refine ⟨by simp, hlast, ?_⟩
      intro hlen h0
      rw [hlen] at hcond
      simp only [reduceIte] at hcond
      rw [h0] at hcond
      simp at hcond
    · rintro ⟨_, hlast, hcond⟩
      refine ⟨hlast, ?_⟩
      split
      · rename_i hlen
        simpa using hcond hlen
      · simp

/-- **C4.**  `PureVersion::cmp` is a total order (equality, antisymmetry via
`swap`, transitivity), compares major, then minor, then patch; two versions
with equal numeric triple and no prerelease are equal; a prerelease sorts
strictly before the bare triple; two prerelease lists compare
lexicographically, a strict prefix sorting before its extension and numeric
identifiers before alphabetic ones; and in particular
`1.0.0-alpha < 1.0.0-alpha.1 < 1.0.0-alpha.beta < 1.0.0-beta
 < 1.0.0-rc.1 < 1.0.0`. -/
theorem claim_c4 :
    (∀ a b : PureVersion, PureVersion.cmp a b = .eq ↔ a = b) ∧
    (∀ a b : PureVersion,
      (PureVersion.cmp a b).swap = PureVersion.cmp b a) ∧
    (∀ a b c : PureVersion, PureVersion.cmp a b = .lt →
      PureVersion.cmp b c = .lt → PureVersion.cmp a c = .lt) ∧
    (∀ a b : PureVersion, a.major ≠ b.major →
      PureVersion.cmp a b = natCmp a.major b.major) ∧
    (∀ a b : PureVersion, a.major = b.major → a.minor ≠ b.minor →
      PureVersion.cmp a b = natCmp a.minor b.minor) ∧
    (∀ a b : PureVersion, a.major = b.major → a.minor = b.minor →
      a.patch ≠ b.patch → PureVersion.cmp a b = natCmp a.patch b.patch) ∧
    (∀ a b : PureVersion, a.major = b.major → a.minor = b.minor →
      a.patch = b.patch → a.pre = [] → b.pre = [] →
      PureVersion.cmp a b = .eq) ∧
    (∀ a b : PureVersion, a.major = b.major → a.minor = b.minor →
      a.patch = b.patch → a.pre ≠ [] → b.pre = [] →
      PureVersion.cmp a b = .lt) ∧
    (∀ a b : PureVersion, a.major = b.major → a.minor = b.minor →
      a.patch = b.patch → a.pre ≠ [] → b.pre ≠ [] →
      PureVersion.cmp a b = cmpList prCmp a.pre b.pre) ∧
    (∀ l x : List Prerelease, x ≠ [] → cmpList prCmp l (l ++ x) = .lt) ∧
    (∀ (n : Nat) (s : String), prCmp (.numeric n) (.alpha s) = .lt) ∧
    (PureVersion.cmp ⟨1, 0, 0, [.alpha "alpha"]⟩
        ⟨1, 0, 0, [.alpha "alpha", .numeric 1]⟩ = .lt ∧
      PureVersion.cmp ⟨1, 0, 0, [.alpha "alpha", .numeric 1]⟩
        ⟨1, 0, 0, [.alpha "alpha", .alpha "beta"]⟩ = .lt ∧
      PureVersion.cmp ⟨1, 0, 0, [.alpha "alpha", .alpha "beta"]⟩
        ⟨1, 0, 0, [.alpha "beta"]⟩ = .lt ∧
      PureVersion.cmp ⟨1, 0, 0, [.alpha "beta"]⟩
        ⟨1, 0, 0, [.alpha "rc", .numeric 1]⟩ = .lt ∧
      PureVersion.cmp ⟨1, 0, 0, [.alpha "rc", .numeric 1]⟩
        ⟨1, 0, 0, []⟩ = .lt) := by
  refine ⟨PureVersion.cmp_lawful.eq_iff, PureVersion.cmp_lawful.swap_eq,
    fun a b c => PureVersion.cmp_lawful.lt_trans,
    ?_, ?_, ?_, ?_, ?_, ?_,
    fun l x => PureVersion.cmpList_self_append, fun n s => rfl, by decide⟩
  · intro a b h
    unfold PureVersion.cmp
    rw [if_pos h]
  · intro a b h₁ h₂
    unfold PureVersion.cmp
    rw [if_neg (fun hc => hc h₁), if_pos h₂]
  · intro a b h₁ h₂ h₃
    unfold PureVersion.cmp
    rw [if_neg (fun hc => hc h₁), if_neg (fun hc => hc h₂), if_pos h₃]
  · intro a b h₁ h₂ h₃ h₄ h₅
    unfold PureVersion.cmp
    rw [if_neg (fun hc => hc h₁), if_neg (fun hc => hc h₂),
      if_neg (fun hc => hc h₃)]
    simp [PureVersion.is_prerelease, h₄, h₅]
  · intro a b h₁ h₂ h₃ h₄ h₅
    unfold PureVersion.cmp
    rw [if_neg (fun hc => hc h₁), if_neg (fun hc => hc h₂),
      if_neg (fun hc => hc h₃)]
    rw [(PureVersion.is_prerelease_true_iff a).mpr h₄,
      (PureVersion.is_prerelease_false_iff b).mpr h₅]
  · intro a b h₁ h₂ h₃ h₄ h₅
    unfold PureVersion.cmp
    rw [if_neg (fun hc => hc h₁), if_neg (fun hc => hc h₂),
      if_neg (fun hc => hc h₃)]
    rw [(PureVersion.is_prerelease_true_iff a).mpr h₄,
      (PureVersion.is_prerelease_true_iff b).mpr h₅]

/-- **C4, witness.** -/
theorem claim_c4_witness :
    PureVersion.cmp ⟨1, 0, 0, [.alpha "alpha"]⟩
      ⟨1, 0, 0, [.alpha "beta"]⟩ = .lt ∧
    PureVersion.cmp ⟨1, 0, 0, []⟩ ⟨2, 0, 0, []⟩ = natCmp 1 2 ∧
    cmpList prCmp [Prerelease.alpha "alpha"]
      ([Prerelease.alpha "alpha"] ++ [Prerelease.numeric 1]) = .lt :=
  ⟨claim_c4.2.2.1 ⟨1, 0, 0, [.alpha "alpha"]⟩
      ⟨1, 0, 0, [.alpha "alpha", .numeric 1]⟩ ⟨1, 0, 0, [.alpha "beta"]⟩
      (by decide) (by decide),
   claim_c4.2.2.2.1 ⟨1, 0, 0, []⟩ ⟨2, 0, 0, []⟩ (by decide),
   claim_c4.2.2.2.2.2.2.2.2.2.1 [Prerelease.alpha "alpha"]
      [Prerelease.numeric 1] (by decide)⟩

/-- **C5, counterexample.**  The claim says *every* construction path
rejects `patch == u64::MAX` with an empty prerelease list.
`PureVersion::new` is a construction path, returns `Self` (it has no error
channel at all), performs no check, and produces exactly that value. -/
theorem claim_c5_counterexample :
    (PureVersion.new 0 0 UMAX).patch = UMAX ∧
    (PureVersion.new 0 0 UMAX).pre = [] :=
  ⟨rfl, rfl⟩

/-- **C5, amended.**  The string-parsing construction paths (which all
funnel through `from_checked_parts_splitted`) reject the combination with
the structured `PatchCannotBeUIntMax` error — shown both in general and on
the concrete input `1.0.18446744073709551615` — but `PureVersion::new`
performs no check and constructs the disallowed value. -/
theorem claim_c5_amended :
    (∀ (major minor patch : List Char) (pre : List Prerelease) (M m p : Nat),
      parseU64Str major = some M → parseU64Str minor = some m →
      parseU64Str patch = some p →
      fromCheckedPartsSplitted major minor patch pre =
        if p = UMAX ∧ pre = [] then .error .patchCannotBeUIntMax
        else .ok ⟨M, m, p, pre⟩) ∧
    (∀ major minor patch : Nat,
      PureVersion.new major minor patch = ⟨major, minor, patch, []⟩) ∧
    pureVersionFromStr "1.0.18446744073709551615".data =
      some (.error .patchCannotBeUIntMax) := by
  refine ⟨?_, fun _ _ _ => rfl, by decide⟩
  intro major minor patch pre M m p hM hm hp
  unfold fromCheckedPartsSplitted
  rw [hM, hm, hp]

/-- **C5, witness.** -/
theorem claim_c5_witness :
    fromCheckedPartsSplitted ['2'] ['3'] ['4'] [] =
      .ok ⟨2, 3, 4, []⟩ := by
  rw [claim_c5_amended.1 ['2'] ['3'] ['4'] [] 2 3 4 (by decide) (by decide)
    (by decide)]
  decide

/-- **C6.**  `between(start, end)` collapses every `start >= end` input to
the unique `EMPTY` value (in any boundary type); in particular
`between(4, 2) == between(400, 20)` over `u64`; and more generally any
`between` construction denoting the empty set equals `EMPTY`. -/
theorem claim_c6 :
    (∀ (T : Type) [RangeExtreme T] (s e : T),
      RangeExtreme.cmp s e ≠ .lt → Range.between s e = Range.EMPTY) ∧
    Range.between (4 : U64) 2 = Range.between 400 20 ∧
    (∀ (T : Type) [RangeExtreme T] [LawfulRangeExtreme T] (s e : T),
      (∀ v, Range.contains (Range.between s e) v = false) →
      Range.between s e = Range.EMPTY) := by
  refine ⟨?_, by decide, ?_⟩
  · intro T _ s e h
    unfold Range.between rge
    rw [if_pos (by simpa using h)]
  · intro T _ _ s e h
    have hf := LawfulRangeExtreme.lawful (T := T)
    by_cases hge : RangeExtreme.cmp s e = .lt
    · exfalso
      have hbe : Range.between s e = ⟨s, e⟩ := by
        unfold Range.between rge
        simp [hge]
      have hs := h s
      rw [hbe, ← Bool.not_eq_true, Range.contains_eq_true_iff] at hs
      exact hs ⟨by rw [hf.refl s]; simp, hge⟩
    · unfold Range.between rge
      rw [if_pos (by simpa using hge)]

/-- **C6, witness.** -/
theorem claim_c6_witness :
    Range.between (5 : U64) 2 = Range.EMPTY ∧
    Range.between (0 : U64) 0 = Range.EMPTY :=
  ⟨claim_c6.1 U64 5 2 (by decide),
   claim_c6.2.2 U64 0 0 (fun v => by
     rw [show Range.between (0 : U64) 0 = Range.EMPTY from rfl]
     exact Range.empty_not_contains v)⟩

/-- **C7, counterexample.**  The claim says range parsing returns a
non-empty ordered list of diagnostics covering *every* syntactic problem in
one pass.  It does not: `from_str` returns a single `RangeParseError` for
the *first* bad constraint only (`"foo,bar"` reports just `foo`), and once
the accumulated range becomes empty it stops looking at the input entirely,
returning `Ok` despite a later syntactic problem (`"<0,foo"`). -/
theorem claim_c7_counterexample :
    rangeFromStrU64 "foo,bar" =
      some (.error (.unrecognizedConstraintOperator "foo")) ∧
    rangeFromStrU64 "<0,foo" = some (.ok Range.EMPTY) := by
  constructor
  · decide
  · decide

/-- **C7, amended.**  `from_str` returns either a fully-formed range value
or a *single* structured `RangeParseError` (as an ordinary `Result` value)
describing the first problem encountered; constraints after the first
failure — or after the range has collapsed to empty — are never examined. -/
theorem claim_c7_amended :
    (∀ (rest : List (List Char)) (r : Range U64),
      fromConstraints (fun cs => some (parseU64FromStr cs))
          (['f', 'o', 'o'] :: rest) r =
        some (.error (.unrecognizedConstraintOperator "foo"))) ∧
    (∀ rest : List (List Char),
      fromConstraints (fun cs => some (parseU64FromStr cs))
          (['<', '0'] :: rest) Range.FULL =
        some (.ok Range.EMPTY)) ∧
    rangeFromStrU64 ">=2,<5" = some (.ok (Range.between 2 5)) := by
  refine ⟨fun rest r => rfl, fun rest => ?_, by decide⟩
  show fromConstraints _ _ _ = _
  rfl

/-- **C8.**  `1.0.0-alpha.1` lies in the range parsed from
`>=1.0.0-alpha,<1.0.0-beta` — the interval `[1.0.0-alpha, 1.0.0-beta)` —
but not in the range parsed from `==1.0.0-alpha`, the interval
`[1.0.0-alpha, next(1.0.0-alpha))`. -/
theorem claim_c8 :
    rangeFromStrPV ">=1.0.0-alpha,<1.0.0-beta" =
      some (.ok ⟨⟨1, 0, 0, [.alpha "alpha"]⟩, ⟨1, 0, 0, [.alpha "beta"]⟩⟩) ∧
    Range.contains
      (⟨⟨1, 0, 0, [.alpha "alpha"]⟩, ⟨1, 0, 0, [.alpha "beta"]⟩⟩ :
        Range PureVersion)
      ⟨1, 0, 0, [.alpha "alpha", .numeric 1]⟩ = true ∧
    rangeFromStrPV "==1.0.0-alpha" =
      some (.ok ⟨⟨1, 0, 0, [.alpha "alpha"]⟩,
        PureVersion.next ⟨1, 0, 0, [.alpha "alpha"]⟩⟩) ∧
    Range.contains
      (⟨⟨1, 0, 0, [.alpha "alpha"]⟩,
        PureVersion.next ⟨1, 0, 0, [.alpha "alpha"]⟩⟩ : Range PureVersion)
      ⟨1, 0, 0, [.alpha "alpha", .numeric 1]⟩ = false := by
  refine ⟨by decide, by decide, by decide, by decide⟩

/-- **C9.**  For all ranges over a `RangeExtreme` type and every value,
membership in `intersection` is exactly simultaneous membership in both
operands. -/
theorem claim_c9 (T : Type) [RangeExtreme T] [DecidableEq T]
    [LawfulRangeExtreme T] (a b : Range T) (v : T) :
    Range.contains (Range.intersection a b) v =
      (Range.contains a v && Range.contains b v) :=
  Range.intersection_contains_iff a b v

/-- **C9, witness.** -/
theorem claim_c9_witness :
    Range.contains (Range.intersection (⟨2, 9⟩ : Range U64) ⟨5, 20⟩) 7 =
      (Range.contains (⟨2, 9⟩ : Range U64) 7 &&
        Range.contains (⟨5, 20⟩ : Range U64) 7) :=
  claim_c9 U64 ⟨2, 9⟩ ⟨5, 20⟩ 7

/-- **C10.**  For valid `PureVersion`s, `compare_next_to` answers exactly
whether `next` of the first equals the second; consequently
`Range::is_single` holds exactly for ranges of the shape `[v, next v)`. -/
theorem claim_c10 :
    (∀ a b : PureVersion, PureVersion.Wf a → PureVersion.Wf b →
      (PureVersion.compare_next_to a b = true ↔ a.next = b)) ∧
    (∀ r : Range PureVersion, PureVersion.Wf r.start →
      PureVersion.Wf r.end_ →
      (Range.is_single r = true ↔ r.end_ = r.start.next)) := by
  constructor
  · intro a b _ _
    exact PureVersion.compare_next_to_iff_next a b
  · intro r _ _
    exact (PureVersion.compare_next_to_iff_next r.start r.end_).trans eq_comm

/-- **C10, witness.** -/
theorem claim_c10_witness :
    (PureVersion.compare_next_to ⟨1, 2, 3, []⟩
        ⟨1, 2, 4, [Prerelease.MIN]⟩ = true ↔
      PureVersion.next ⟨1, 2, 3, []⟩ = ⟨1, 2, 4, [Prerelease.MIN]⟩) ∧
    (Range.is_single
        (⟨⟨1, 2, 3, []⟩, ⟨1, 2, 4, [Prerelease.MIN]⟩⟩ : Range PureVersion) =
          true ↔
      (⟨1, 2, 4, [Prerelease.MIN]⟩ : PureVersion) =
        PureVersion.next ⟨1, 2, 3, []⟩) :=
  ⟨claim_c10.1 ⟨1, 2, 3, []⟩ ⟨1, 2, 4, [Prerelease.MIN]⟩ (by decide)
      (by decide),
   claim_c10.2 ⟨⟨1, 2, 3, []⟩, ⟨1, 2, 4, [Prerelease.MIN]⟩⟩ (by decide)
      (by decide)⟩

end Areq
